import Mathlib

/-!
Verification of the documentation-crawler pipeline (`app/text_extractor.py`,
`app/utils.py`): text normalization, recursive repository crawling, JSONL
emission and loading.  Strings are modelled as `List Char` internally, with
`String` wrappers matching the Python function names.
-/

namespace DocsCrawler

/-! ## Character classes

`isPySpace` models the ASCII part of Python's `\s` / `str.strip` whitespace
(space, tab, newline, carriage return, vertical tab, form feed); the inputs
this development touches contain no non-ASCII whitespace. -/

theorem dropWhile_len_le (p : Char → Bool) (l : List Char) :
    (l.dropWhile p).length ≤ l.length :=
  (List.dropWhile_sublist p).length_le

def isPySpace (c : Char) : Bool :=
  c = ' ' || c = '\t' || c = '\n' || c = '\r' || c = '\x0b' || c = '\x0c'

def nonWs (c : Char) : Bool := !isPySpace c

/-! ## Stage 1: `re.sub(r"<[^>]*>", "", text)`

At each `<`, Python's regex engine matches the greedy `[^>]*` up to the first
subsequent `>`; if no `>` follows, there is no match at that position and the
scan advances one character. -/

/-- Suffix strictly after the first `>` of the list, if any. -/
def afterGt : List Char → Option (List Char)
  | [] => none
  | c :: rest => if c = '>' then some rest else afterGt rest

theorem afterGt_length {l rest : List Char} (h : afterGt l = some rest) :
    rest.length < l.length := by
  induction l with
  | nil => simp [afterGt] at h
  | cons c cs ih =>
    by_cases hc : c = '>'
    · simp [afterGt, hc] at h; subst h; simp
    · simp [afterGt, hc] at h
      exact Nat.lt_trans (ih h) (by simp)

def removeTags : List Char → List Char
  | [] => []
  | c :: rest =>
    if c = '<' then
      match h2 : afterGt rest with
      | some rest' => removeTags rest'
      | none => c :: removeTags rest
    else
      c :: removeTags rest
termination_by l => l.length
decreasing_by
  · exact Nat.lt_trans (afterGt_length h2) (by simp)
  · simp
  · simp

/-! ## Stage 2: `re.sub(r"http\S+|www.\S+", "", text)`

Note the unescaped dot in `www.\S+`: it matches ANY character except a
newline, not only a literal `.`.  A match is `http` followed by at least one
non-whitespace character (greedy), or `www` followed by one arbitrary
non-newline character and then at least one non-whitespace character. -/

def headIs (p : Char → Bool) : List Char → Bool
  | [] => false
  | c :: _ => p c

/-- Position matches `http\S+`. -/
def httpHit (l : List Char) : Bool :=
  "http".data.isPrefixOf l && headIs nonWs (l.drop 4)

/-- Position matches `www.\S+` (the `.` is a wildcard for any non-newline). -/
def wwwHit (l : List Char) : Bool :=
  "www".data.isPrefixOf l && headIs (fun c => c ≠ '\n') (l.drop 3)
    && headIs nonWs (l.drop 4)

/-- Rest of the input after the greedy `\S+` of a URL match starting here. -/
def urlRest (l : List Char) : List Char :=
  (l.drop 4).dropWhile nonWs

theorem urlRest_length {l : List Char} (h : l ≠ []) : (urlRest l).length < l.length := by
  have h1 : ((l.drop 4).dropWhile nonWs).length ≤ (l.drop 4).length :=
    dropWhile_len_le _ _
  have h2 : (l.drop 4).length = l.length - 4 := List.length_drop 4 l
  have h3 : 0 < l.length := List.length_pos.mpr h
  simp only [urlRest]
  omega

def removeUrls : List Char → List Char
  | [] => []
  | c :: rest =>
    if httpHit (c :: rest) || wwwHit (c :: rest) then
      removeUrls (urlRest (c :: rest))
    else
      c :: removeUrls rest
termination_by l => l.length
decreasing_by
  · exact urlRest_length (by simp)
  · simp

/-! ## Stage 3: `re.sub(r"Copyright.*", "", text)`

`.*` extends greedily to the end of the line (it never crosses `\n`);
scanning resumes at the newline itself. -/

def removeCopyright : List Char → List Char
  | [] => []
  | c :: rest =>
    if "Copyright".data.isPrefixOf (c :: rest) then
      removeCopyright (((c :: rest).drop 9).dropWhile (fun d => d ≠ '\n'))
    else
      c :: removeCopyright rest
termination_by l => l.length
decreasing_by
  · have h1 := dropWhile_len_le (fun d => d ≠ '\n') ((c :: rest).drop 9)
    have h2 : ((c :: rest).drop 9).length = (c :: rest).length - 9 :=
      List.length_drop 9 (c :: rest)
    simp only [List.length_cons] at *
    omega
  · simp

/-! ## Stage 4: `text.replace("\n", " ")` -/

def replaceNewlines (l : List Char) : List Char :=
  l.map (fun c => if c = '\n' then ' ' else c)

/-! ## Stage 5: `emoji.demojize(text)`

Modelled from the `emoji` library's documented behaviour on the code points
this repository's claims exercise: each emoji glyph is replaced by its
`:name:` alias and every non-emoji character is left unchanged.  The table
carries the one glyph appearing in the specification scenario (🎉 ↦
`:tada:`). -/

def demojizeChar (c : Char) : List Char :=
  if c = '🎉' then ":tada:".data else [c]

def demojize (l : List Char) : List Char :=
  l.flatMap demojizeChar

/-! ## Stage 6: `re.sub(r":[a-z_&+-]+:", "", text)` -/

def colonClass (c : Char) : Bool :=
  ('a' ≤ c && c ≤ 'z') || c = '_' || c = '&' || c = '+' || c = '-'

/-- Position (at a `:`) matches `:[a-z_&+-]+:`: a non-empty run of class
characters whose maximal extent is immediately followed by `:`. -/
def colonHit (rest : List Char) : Bool :=
  let run := rest.takeWhile colonClass
  !run.isEmpty && headIs (fun c => c = ':') (rest.drop run.length)

/-- Rest of the input after the closing `:` of a colon-token match. -/
def colonRest (rest : List Char) : List Char :=
  (rest.drop (rest.takeWhile colonClass).length).drop 1

theorem colonRest_length (rest : List Char) : (colonRest rest).length ≤ rest.length := by
  simp only [colonRest]
  have := List.length_drop (rest.takeWhile colonClass).length rest
  have := List.length_drop 1 (rest.drop (rest.takeWhile colonClass).length)
  omega

def removeColonTokens : List Char → List Char
  | [] => []
  | c :: rest =>
    if c = ':' && colonHit rest then
      removeColonTokens (colonRest rest)
    else
      c :: removeColonTokens rest
termination_by l => l.length
decreasing_by
  · have := colonRest_length rest
    simp only [List.length_cons]
    omega
  · simp

/-! ## `preprocess_text` (the full pipeline of `text_extractor.preprocess_text`) -/

def preprocessList (l : List Char) : List Char :=
  removeColonTokens (demojize (replaceNewlines
    (removeCopyright (removeUrls (removeTags l)))))

def preprocess_text (s : String) : String :=
  ⟨preprocessList s.data⟩

/-! ## Fetcher-side whitespace collapse and trim
(`re.sub(r"\s+", " ", text)` followed by `text.strip()`). -/

def collapseWs : List Char → List Char
  | [] => []
  | c :: rest =>
    if isPySpace c then
      ' ' :: collapseWs (rest.dropWhile isPySpace)
    else
      c :: collapseWs rest
termination_by l => l.length
decreasing_by
  · have := dropWhile_len_le isPySpace rest
    simp only [List.length_cons]
    omega
  · simp

def pyStrip (l : List Char) : List Char :=
  ((l.dropWhile isPySpace).reverse.dropWhile isPySpace).reverse

/-- The fetcher's complete text transformation: `preprocess_text`, then
whitespace collapse, then strip. -/
def normalizeCollapseList (l : List Char) : List Char :=
  pyStrip (collapseWs (preprocessList l))

def normalizeCollapse (s : String) : String :=
  ⟨normalizeCollapseList s.data⟩

/-! ## Data model: repository descriptors, records, HTTP responses -/

/-- The `repo_info` dict: `{owner, repo}` (plus a root `path` supplied
separately to the crawler). -/
structure RepoInfo where
  owner : String
  repo : String
deriving DecidableEq, Repr

/-- The dict written by `download_file`:
`{"title", "repo_owner", "repo_name", "text"}`, in insertion order. -/
structure FileDict where
  title : String
  repo_owner : String
  repo_name : String
  text : String
deriving DecidableEq, Repr

/-- A completed `requests.get` response.  In the `requests` library the
`text` property of a completed response is always a `str`. -/
structure HttpResponse where
  status_code : Nat
  text : String
deriving DecidableEq, Repr

/-- `response.text` as the fetcher observes it: the code guards with
`text is not None and isinstance(text, str)`, so the observation type is
`Option String`; for every completed GET the value is `some`. -/
def responseText (r : HttpResponse) : Option String :=
  some r.text

/-- Python `s.split(sep)` for a single-character separator: split at every
occurrence, keeping empty groups (`"".split` gives one empty group). -/
def splitOnChar (sep : Char) : List Char → List (List Char)
  | [] => [[]]
  | c :: rest =>
    if c = sep then
      [] :: splitOnChar sep rest
    else
      match splitOnChar sep rest with
      | [] => [[c]]
      | g :: gs => (c :: g) :: gs

/-- Python `url.split("/")[-1]` (the `filename` of `download_file`). -/
def lastSegment (url : String) : String :=
  ⟨(splitOnChar '/' url.data).getLastD []⟩

/-- `download_file`, minus I/O: given the URL and the observed response
text, the list of records appended to the JSONL file by this call (the
`else` branch logs an error and appends nothing). -/
def download_file (url : String) (repo_info : RepoInfo) (text : Option String) :
    List FileDict :=
  match text with
  | some t =>
      [{ title := lastSegment url
         repo_owner := repo_info.owner
         repo_name := repo_info.repo
         text := normalizeCollapse t }]
  | none => []

/-! ## The crawler (`process_directory`)

The GitHub listing API is modelled as a tree: each entry carries the four
JSON fields the code reads (`type`, `name`, `path`, `download_url`), the
body that a GET of its `download_url` would return, and — for entries that
get recursed into — the status and entries of the listing of its `path`. -/

inductive GhEntry : Type where
  | mk (type name path download_url : String) (body : String)
      (substatus : Nat) (subentries : List GhEntry)

def GhEntry.type : GhEntry → String | .mk t _ _ _ _ _ _ => t
def GhEntry.name : GhEntry → String | .mk _ n _ _ _ _ _ => n
def GhEntry.path : GhEntry → String | .mk _ _ p _ _ _ _ => p
def GhEntry.download_url : GhEntry → String | .mk _ _ _ u _ _ _ => u
def GhEntry.body : GhEntry → String | .mk _ _ _ _ b _ _ => b
def GhEntry.substatus : GhEntry → Nat | .mk _ _ _ _ _ s _ => s
def GhEntry.subentries : GhEntry → List GhEntry | .mk _ _ _ _ _ _ es => es

/-- Externally observable effects of one crawl: directory-listing requests
issued (paths), file GETs issued (URLs), records appended to the sink, and
listing failures logged as (path, status). -/
structure Trace where
  listings : List String
  fetches : List String
  records : List FileDict
  errors : List (String × Nat)
deriving DecidableEq, Repr

def Trace.empty : Trace := ⟨[], [], [], []⟩

def Trace.app (a b : Trace) : Trace :=
  ⟨a.listings ++ b.listings, a.fetches ++ b.fetches,
   a.records ++ b.records, a.errors ++ b.errors⟩

instance : Append Trace := ⟨Trace.app⟩

theorem Trace.app_def (a b : Trace) :
    a ++ b = ⟨a.listings ++ b.listings, a.fetches ++ b.fetches,
      a.records ++ b.records, a.errors ++ b.errors⟩ := rfl

/-- Python `os.path.basename` on POSIX paths: everything after the last
slash. -/
def basename (path : String) : String :=
  ⟨(splitOnChar '/' path.data).getLastD []⟩

/-- Python `s.endswith(suffix)` (case-sensitive suffix test). -/
def pyEndsWith (s suffix : String) : Bool :=
  suffix.data.isSuffixOf s.data

mutual

/-- `process_directory(path, repo_info, headers, jsonl_file_name)`: skip
directories whose basename is `"zh"`; otherwise issue the listing request;
on status 200 iterate the entries, else log the status. -/
def process_directory (repo_info : RepoInfo) (path : String)
    (status : Nat) (entries : List GhEntry) : Trace :=
  if basename path = "zh" then
    Trace.empty
  else
    ⟨[path], [], [], []⟩ ++
      (if status = 200 then
        processEntries repo_info entries
      else
        ⟨[], [], [], [(path, status)]⟩)
termination_by (sizeOf entries, 1)

/-- The `for file in files:` loop body of `process_directory`. -/
def processEntries (repo_info : RepoInfo) : List GhEntry → Trace
  | [] => Trace.empty
  | .mk type name path download_url body substatus subentries :: rest =>
      (if type = "file" ∧ (pyEndsWith name ".mdx" ∨ pyEndsWith name ".md") then
        ⟨[], [download_url], download_file download_url repo_info
          (responseText ⟨200, body⟩), []⟩
      else if type = "dir" then
        process_directory repo_info path substatus subentries
      else
        Trace.empty) ++ processEntries repo_info rest
termination_by l => (sizeOf l, 0)

end

/-- The `main` loop over configured repositories: one `process_directory`
call per descriptor, appending to the same sink. -/
def crawlRepos : List (RepoInfo × String × Nat × List GhEntry) → Trace
  | [] => Trace.empty
  | (r, p, st, es) :: rest => process_directory r p st es ++ crawlRepos rest

/-- The per-entry dispatch as the specification words it: type `"file"` with
a name ending in `.md` or `.mdx` is delegated to the fetcher, type `"dir"`
is recursed into, anything else is ignored silently. -/
def claimStep (repo_info : RepoInfo) (e : GhEntry) : Trace :=
  if e.type = "file" then
    if pyEndsWith e.name ".md" ∨ pyEndsWith e.name ".mdx" then
      ⟨[], [e.download_url], download_file e.download_url repo_info
        (responseText ⟨200, e.body⟩), []⟩
    else
      Trace.empty
  else if e.type = "dir" then
    process_directory repo_info e.path e.substatus e.subentries
  else
    Trace.empty

/-! ## The normalizer as the specification describes it

Identical to `preprocess_text` except for the URL rule, which the spec
states with a literal `www.` (dot included): "any token starting with
`http` followed by non-whitespace, or starting with `www.` followed by
non-whitespace, is deleted". -/

/-- Position matches the spec's `www.` rule: literal `www.` then at least
one non-whitespace character. -/
def specWwwHit (l : List Char) : Bool :=
  "www.".data.isPrefixOf l && headIs nonWs (l.drop 4)

def specRemoveUrls : List Char → List Char
  | [] => []
  | c :: rest =>
    if httpHit (c :: rest) || specWwwHit (c :: rest) then
      specRemoveUrls (urlRest (c :: rest))
    else
      c :: specRemoveUrls rest
termination_by l => l.length
decreasing_by
  · exact urlRest_length (by simp)
  · simp

def specPreprocessList (l : List Char) : List Char :=
  removeColonTokens (demojize (replaceNewlines
    (removeCopyright (specRemoveUrls (removeTags l)))))

/-- The spec's `normalize`, built from the spec's own words (steps 1-5 of
its pipeline; collapse is caller-side). -/
def specNormalize (s : String) : String :=
  ⟨specPreprocessList s.data⟩

/-- No occurrence of the substring `www`. -/
def noWww : List Char → Bool
  | [] => true
  | c :: rest => !("www".data.isPrefixOf (c :: rest)) && noWww rest

/-! ## Construct-absence predicates (for the idempotence analysis) -/

/-- Whether the character `a` occurs in the list. -/
def hasChar (a : Char) : List Char → Bool
  | [] => false
  | c :: rest => c = a || hasChar a rest

/-- No `<` followed (anywhere later) by `>`, i.e. no `<[^>]*>` match. -/
def tagFree (l : List Char) : Bool :=
  match l.dropWhile (fun c => c ≠ '<') with
  | [] => true
  | _ :: rest => !hasChar '>' rest

/-- No position matches `http\S+` or `www.\S+`. -/
def urlFree : List Char → Bool
  | [] => true
  | c :: rest => !(httpHit (c :: rest) || wwwHit (c :: rest)) && urlFree rest

/-- No occurrence of the substring `Copyright`. -/
def copyrightFree : List Char → Bool
  | [] => true
  | c :: rest => !("Copyright".data.isPrefixOf (c :: rest)) && copyrightFree rest

/-- No character of the demojize table (no emoji glyph). -/
def emojiFree (l : List Char) : Bool :=
  !hasChar '🎉' l

/-- No position matches `:[a-z_&+-]+:`. -/
def colonFree : List Char → Bool
  | [] => true
  | c :: rest => !(c = ':' && colonHit rest) && colonFree rest

/-- Every whitespace character of the list is a plain space. -/
def AllBlank (l : List Char) : Prop :=
  ∀ c ∈ l, isPySpace c = true → c = ' '

/-- No two adjacent whitespace characters. -/
def NoTwoWs (l : List Char) : Prop :=
  l.Chain' (fun a b => ¬(isPySpace a = true ∧ isPySpace b = true))

/-! ## JSONL sink: `json.dumps(file_dict) + "\n"` appended per record

`json.dumps` with default options: keys in dict insertion order,
separators `", "` and `": "`, `ensure_ascii=True` (every character outside
printable ASCII becomes a `\uXXXX` escape, astral code points as a
surrogate pair). -/

/-- Lowercase hex digit for a nibble. -/
def hexDigitChar (n : Nat) : Char :=
  if n < 10 then Char.ofNat (48 + n) else Char.ofNat (87 + n % 16)

/-- `\uXXXX` escape for a 16-bit value. -/
def uEscape (n : Nat) : List Char :=
  ['\\', 'u', hexDigitChar (n / 4096 % 16), hexDigitChar (n / 256 % 16),
   hexDigitChar (n / 16 % 16), hexDigitChar (n % 16)]

/-- One character of `json.dumps` string output (`ensure_ascii` mode). -/
def escapeChar (c : Char) : List Char :=
  if c = '"' then ['\\', '"']
  else if c = '\\' then ['\\', '\\']
  else if c = '\n' then ['\\', 'n']
  else if c = '\t' then ['\\', 't']
  else if c = '\r' then ['\\', 'r']
  else if c = '\x08' then ['\\', 'b']
  else if c = '\x0c' then ['\\', 'f']
  else if 0x20 ≤ c.toNat ∧ c.toNat ≤ 0x7e then [c]
  else if c.toNat < 0x10000 then uEscape c.toNat
  else uEscape (0xd800 + (c.toNat - 0x10000) / 1024) ++
       uEscape (0xdc00 + (c.toNat - 0x10000) % 1024)

/-- `json.dumps` of one string value (quotes included). -/
def dumpsJString (s : String) : List Char :=
  '"' :: (s.data.flatMap escapeChar ++ ['"'])

/-- `json.dumps(file_dict)`: the exact line body written by the sink. -/
def serializeRecord (r : FileDict) : List Char :=
  ['\x7b'] ++ dumpsJString "title" ++ [':', ' '] ++ dumpsJString r.title
    ++ [',', ' '] ++ dumpsJString "repo_owner" ++ [':', ' '] ++ dumpsJString r.repo_owner
    ++ [',', ' '] ++ dumpsJString "repo_name" ++ [':', ' '] ++ dumpsJString r.repo_name
    ++ [',', ' '] ++ dumpsJString "text" ++ [':', ' '] ++ dumpsJString r.text
    ++ ['\x7d']

/-- The JSONL file produced by a run that appended these records in order
(one `json.dumps(..) + "\n"` write per record). -/
def sinkFile (rs : List FileDict) : List Char :=
  rs.flatMap (fun r => serializeRecord r ++ ['\n'])

/-! ## JSONL loader (`DocsJSONLLoader.load` of `app/utils.py`)

`jsonlines` parses each non-empty line with `json.loads`; a line that is
not valid JSON raises (modelled as `none` for the whole load).  The parser
below covers JSON objects with string values — the only shape this
system's sink ever writes — and is strict like `json.loads`: raw control
characters inside strings are rejected, escapes (including `\uXXXX` with
surrogate pairs) are decoded. -/

def isJsonWs (c : Char) : Bool :=
  c = ' ' || c = '\t' || c = '\n' || c = '\r'

def skipWs (l : List Char) : List Char :=
  l.dropWhile isJsonWs

def hexVal (c : Char) : Option Nat :=
  if '0' ≤ c ∧ c ≤ '9' then some (c.toNat - 48)
  else if 'a' ≤ c ∧ c ≤ 'f' then some (c.toNat - 87)
  else if 'A' ≤ c ∧ c ≤ 'F' then some (c.toNat - 55)
  else none

def parseHex4 : List Char → Option (Nat × List Char)
  | a :: b :: c :: d :: rest =>
    match hexVal a, hexVal b, hexVal c, hexVal d with
    | some x, some y, some z, some w => some (4096 * x + 256 * y + 16 * z + w, rest)
    | _, _, _, _ => none
  | _ => none

theorem parseHex4_length {l : List Char} {n : Nat} {r : List Char}
    (h : parseHex4 l = some (n, r)) : r.length + 4 = l.length := by
  match l with
  | a :: b :: c :: d :: rest =>
    simp only [parseHex4] at h
    split at h
    · simp at h
      obtain ⟨-, h2⟩ := h
      subst h2
      simp
    · simp at h
  | [] => simp [parseHex4] at h
  | [a] => simp [parseHex4] at h
  | [a, b] => simp [parseHex4] at h
  | [a, b, c] => simp [parseHex4] at h

/-- One short escape (`\n`, `\t`, …) decoded. -/
def escDecode (e : Char) : Option Char :=
  if e = '"' then some '"'
  else if e = '\\' then some '\\'
  else if e = '/' then some '/'
  else if e = 'n' then some '\n'
  else if e = 't' then some '\t'
  else if e = 'r' then some '\r'
  else if e = 'b' then some '\x08'
  else if e = 'f' then some '\x0c'
  else none

/-- One escape sequence, positioned just after the backslash: short escape,
`\uXXXX`, or a `\uXXXX\uXXXX` surrogate pair. -/
def parseEscape : List Char → Option (Char × List Char)
  | [] => none
  | e :: rest2 =>
    if e = 'u' then
      match parseHex4 rest2 with
      | none => none
      | some (n, rest3) =>
        if n < 0xd800 ∨ 0xe000 ≤ n then some (Char.ofNat n, rest3)
        else if n < 0xdc00 then
          match rest3 with
          | a :: b :: rest4 =>
            if a = '\\' ∧ b = 'u' then
              match parseHex4 rest4 with
              | some (m, rest5) =>
                if 0xdc00 ≤ m ∧ m < 0xe000 then
                  some (Char.ofNat (0x10000 + (n - 0xd800) * 1024 + (m - 0xdc00)), rest5)
                else none
              | none => none
            else none
          | _ => none
        else none
    else
      (escDecode e).map (fun d => (d, rest2))

theorem parseEscape_length {l : List Char} {d : Char} {r : List Char}
    (h : parseEscape l = some (d, r)) : r.length < l.length := by
  match l with
  | [] => simp [parseEscape] at h
  | e :: rest2 =>
    rw [parseEscape] at h
    by_cases he : e = 'u'
    · rw [if_pos he] at h
      cases h4 : parseHex4 rest2 with
      | none => rw [h4] at h; simp at h
      | some p =>
        obtain ⟨n, rest3⟩ := p
        rw [h4] at h; dsimp only at h
        have hx := parseHex4_length h4
        by_cases hn : n < 0xd800 ∨ 0xe000 ≤ n
        · rw [if_pos hn] at h
          simp at h
          obtain ⟨-, h2⟩ := h
          subst h2
          simp only [List.length_cons]
          omega
        · rw [if_neg hn] at h
          by_cases hn2 : n < 0xdc00
          · rw [if_pos hn2] at h
            rcases rest3 with - | ⟨a, - | ⟨b, rest4⟩⟩
            · simp at h
            · simp at h
            · dsimp only at h
              by_cases hab : a = '\\' ∧ b = 'u'
              · rw [if_pos hab] at h
                cases h6 : parseHex4 rest4 with
                | none => rw [h6] at h; simp at h
                | some q =>
                  obtain ⟨m, rest5⟩ := q
                  rw [h6] at h; dsimp only at h
                  have hy := parseHex4_length h6
                  by_cases hm : 0xdc00 ≤ m ∧ m < 0xe000
                  · rw [if_pos hm] at h
                    simp at h
                    obtain ⟨-, h2⟩ := h
                    subst h2
                    simp only [List.length_cons] at *
                    omega
                  · rw [if_neg hm] at h; simp at h
              · rw [if_neg hab] at h; simp at h
          · rw [if_neg hn2] at h; simp at h
    · rw [if_neg he] at h
      cases hd : escDecode e with
      | none => rw [hd] at h; simp at h
      | some d2 =>
        rw [hd] at h
        simp at h
        obtain ⟨-, h2⟩ := h
        subst h2
        simp

/-- Body of a JSON string after the opening quote: returns the decoded
characters and the input after the closing quote.  Strict like
`json.loads`: raw control characters are rejected. -/
def parseJStringBody : List Char → Option (List Char × List Char)
  | [] => none
  | c :: rest =>
    if c = '"' then some ([], rest)
    else if c = '\\' then
      match h8 : parseEscape rest with
      | none => none
      | some (d, rest2) =>
        match parseJStringBody rest2 with
        | none => none
        | some (s, r) => some (d :: s, r)
    else if c.toNat < 0x20 then none
    else
      match parseJStringBody rest with
      | none => none
      | some (s, r) => some (c :: s, r)
termination_by l => l.length
decreasing_by
  · have := parseEscape_length h8
    simp only [List.length_cons]
    omega
  · simp

/-- A complete JSON string token (opening quote onwards). -/
def parseJString : List Char → Option (List Char × List Char)
  | c :: rest => if c = '"' then parseJStringBody rest else none
  | [] => none

theorem parseJStringBody_length_aux :
    ∀ (fuel : Nat) (l : List Char), l.length ≤ fuel → ∀ {s r : List Char},
      parseJStringBody l = some (s, r) → r.length < l.length := by
  intro fuel
  induction fuel with
  | zero =>
    intro l hl s r h
    match l with
    | [] => simp [parseJStringBody] at h
  | succ n ih =>
    intro l hl s r h
    match l with
    | [] => simp [parseJStringBody] at h
    | c :: rest =>
      rw [parseJStringBody] at h
      by_cases hq : c = '"'
      · rw [if_pos hq] at h
        simp at h
        obtain ⟨-, h2⟩ := h
        subst h2
        simp
      · rw [if_neg hq] at h
        by_cases hb : c = '\\'
        · rw [if_pos hb] at h
          cases h8 : parseEscape rest with
          | none => rw [h8] at h; simp at h
          | some p =>
            obtain ⟨d, rest2⟩ := p
            rw [h8] at h; dsimp only at h
            have hx := parseEscape_length h8
            cases h9 : parseJStringBody rest2 with
            | none => rw [h9] at h; simp at h
            | some q =>
              obtain ⟨s2, r2⟩ := q
              rw [h9] at h; dsimp only at h
              simp at h
              obtain ⟨-, h2⟩ := h
              subst h2
              have hr := ih rest2 (by simp only [List.length_cons] at hl; omega) h9
              simp only [List.length_cons] at *
              omega
        · rw [if_neg hb] at h
          by_cases hc : c.toNat < 0x20
          · rw [if_pos hc] at h; simp at h
          · rw [if_neg hc] at h
            cases h9 : parseJStringBody rest with
            | none => rw [h9] at h; simp at h
            | some q =>
              obtain ⟨s2, r2⟩ := q
              rw [h9] at h; dsimp only at h
              simp at h
              obtain ⟨-, h2⟩ := h
              subst h2
              have hr := ih rest (by simp only [List.length_cons] at hl; omega) h9
              simp only [List.length_cons] at *
              omega

theorem parseJStringBody_length {l : List Char} {s r : List Char}
    (h : parseJStringBody l = some (s, r)) : r.length < l.length :=
  parseJStringBody_length_aux l.length l le_rfl h

theorem parseJString_length {l : List Char} {s r : List Char}
    (h : parseJString l = some (s, r)) : r.length < l.length := by
  match l with
  | [] => simp [parseJString] at h
  | c :: rest =>
    rw [parseJString] at h
    by_cases hc : c = '"'
    · rw [if_pos hc] at h
      have := parseJStringBody_length h
      simp only [List.length_cons]
      omega
    · rw [if_neg hc] at h
      simp at h

theorem skipWs_length (l : List Char) : (skipWs l).length ≤ l.length :=
  dropWhile_len_le _ _

/-- The members of a JSON object, positioned at the first key's opening
quote; consumes through the closing `\x7d`. -/
def parseMembers (l : List Char) : Option (List (String × String) × List Char) :=
  match h1 : parseJString l with
  | none => none
  | some (k, r1) =>
    match h2 : skipWs r1 with
    | [] => none
    | c1 :: r2 =>
      if c1 = ':' then
        match h3 : parseJString (skipWs r2) with
        | none => none
        | some (v, r3) =>
          match h5 : skipWs r3 with
          | [] => none
          | c3 :: r4 =>
            if c3 = ',' then
              match parseMembers (skipWs r4) with
              | none => none
              | some (ms, r5) => some ((⟨k⟩, ⟨v⟩) :: ms, r5)
            else if c3 = '\x7d' then some ([(⟨k⟩, ⟨v⟩)], r4)
            else none
      else none
termination_by l.length
decreasing_by
  · have ha := parseJString_length h1
    have hb := skipWs_length r1
    have hc : (c1 :: r2).length = (skipWs r1).length := by rw [h2]
    have hd := skipWs_length r2
    have he := parseJString_length h3
    have hf : (c3 :: r4).length = (skipWs r3).length := by rw [h5]
    have hg := skipWs_length r3
    have hh := skipWs_length r4
    simp only [List.length_cons] at *
    omega

/-- A JSON object (`\x7b` onwards). -/
def parseObject : List Char → Option (List (String × String) × List Char)
  | c :: rest =>
    if c = '\x7b' then
      match skipWs rest with
      | c2 :: rest2 => if c2 = '\x7d' then some ([], rest2) else parseMembers (c2 :: rest2)
      | [] => none
    else none
  | [] => none

/-- `json.loads` of one line (whitespace-tolerant, must consume the whole
line). -/
def parseLine (line : List Char) : Option (List (String × String)) :=
  match parseObject (skipWs line) with
  | some (obj, rest) => if (skipWs rest).isEmpty then some obj else none
  | none => none

/-- Python dict lookup with default: `obj.get(k, "")`, last duplicate key
wins as in `json.loads`. -/
def jget (obj : List (String × String)) (k : String) : String :=
  (obj.reverse.lookup k).getD ""

/-- `langchain.schema.Document` metadata bag as filled by the loader. -/
structure DocMetadata where
  title : String
  repo_owner : String
  repo_name : String
deriving DecidableEq, Repr

/-- `langchain.schema.Document` as the loader constructs it. -/
structure Document where
  page_content : String
  metadata : DocMetadata
deriving DecidableEq, Repr

/-- The loader's per-object mapping: `obj.get("text", "")` and the three
metadata fields, each defaulting to the empty string. -/
def docOfObj (obj : List (String × String)) : Document :=
  { page_content := jget obj "text"
    metadata :=
      { title := jget obj "title"
        repo_owner := jget obj "repo_owner"
        repo_name := jget obj "repo_name" } }

/-- Line-by-line load: empty lines are skipped, a non-JSON line raises
(modelled as `none` for the whole call). -/
def loadLines : List (List Char) → Option (List Document)
  | [] => some []
  | line :: rest =>
    if line.isEmpty then loadLines rest
    else
      match parseLine line with
      | none => none
      | some obj =>
        match loadLines rest with
        | none => none
        | some ds => some (docOfObj obj :: ds)

namespace DocsJSONLLoader

/-- `DocsJSONLLoader.load`: read the JSONL file, one document per line. -/
def load (file : String) : Option (List Document) :=
  loadLines (splitOnChar '\n' file.data)

end DocsJSONLLoader

/-- The document the loader reconstructs from a record the sink wrote. -/
def docOfRecord (r : FileDict) : Document :=
  { page_content := r.text
    metadata := { title := r.title, repo_owner := r.repo_owner, repo_name := r.repo_name } }

/-! # Claim theorems -/

unseal removeTags removeUrls removeCopyright removeColonTokens collapseWs in
/-- C1: the raw body `"<p>Hello http://x.com 🎉</p>\nCopyright 2024 Acme"`
fetched from a URL whose last path segment is `intro.md` under descriptor
`owner="acme"`, `repo="docs"` normalizes (preprocess, collapse, trim) to
`"Hello"`, and the record written to the sink is exactly
`{"title": "intro.md", "repo_owner": "acme", "repo_name": "docs",
"text": "Hello"}`. -/
theorem C1_scenario_pipeline_and_record :
    normalizeCollapse "<p>Hello http://x.com 🎉</p>\nCopyright 2024 Acme" = "Hello" ∧
    download_file "https://raw.githubusercontent.com/acme/docs/main/guide/intro.md"
        ⟨"acme", "docs"⟩
        (responseText ⟨200, "<p>Hello http://x.com 🎉</p>\nCopyright 2024 Acme"⟩) =
      [{ title := "intro.md", repo_owner := "acme", repo_name := "docs",
         text := "Hello" }] := by
  refine ⟨by decide, by decide⟩

/-- C4: for every path whose final segment is exactly `"zh"`,
`process_directory` returns at once: no listing request, no fetches, no
records, no logged errors — for any status and any tree whatsoever. -/
theorem C4_zh_skip (repo_info : RepoInfo) (path : String) (status : Nat)
    (entries : List GhEntry) (h : basename path = "zh") :
    process_directory repo_info path status entries = Trace.empty := by
  unfold process_directory
  simp [h]

theorem C4_zh_skip_witness :
    basename "docs/zh" = "zh" ∧
    process_directory ⟨"acme", "docs"⟩ "docs/zh" 200
      [GhEntry.mk "file" "a.md" "docs/zh/a.md" "https://r/a.md" "Body" 200 []] =
      Trace.empty :=
  ⟨by decide, C4_zh_skip ⟨"acme", "docs"⟩ "docs/zh" 200
    [GhEntry.mk "file" "a.md" "docs/zh/a.md" "https://r/a.md" "Body" 200 []] (by decide)⟩

/-- C9: the fetcher's error branch is unreachable for completed GETs: the
`requests` response's `text` is always a string, so `download_file` writes
exactly one record — title from the URL's last segment, text the
normalized body — whatever the status code or body (including empty bodies
and HTTP error pages); the guarded `else` branch writes nothing. -/
theorem C9_fetcher_always_writes (url : String) (repo_info : RepoInfo) (r : HttpResponse) :
    download_file url repo_info (responseText r) =
      [{ title := lastSegment url, repo_owner := repo_info.owner,
         repo_name := repo_info.repo, text := normalizeCollapse r.text }] ∧
    download_file url repo_info none = [] :=
  ⟨rfl, rfl⟩

/-- C10: the `"zh"` skip rule is exact string equality on the final path
segment: any other basename (e.g. `zh-CN`, `zh_docs`, `zhx`) proceeds to
the listing request and normal processing. -/
theorem C10_zh_exact_match_only (repo_info : RepoInfo) (path : String) (status : Nat)
    (entries : List GhEntry) (h : basename path ≠ "zh") :
    process_directory repo_info path status entries =
      ⟨[path], [], [], []⟩ ++
        (if status = 200 then processEntries repo_info entries
         else ⟨[], [], [], [(path, status)]⟩) := by
  unfold process_directory
  simp [h]

theorem C10_zh_exact_match_only_witness :
    (basename "docs/zh-CN" ≠ "zh" ∧ basename "zh_docs" ≠ "zh" ∧
      basename "docs/zhx" ≠ "zh") ∧
    process_directory ⟨"o", "r"⟩ "docs/zh-CN" 200
        [GhEntry.mk "file" "a.md" "docs/zh-CN/a.md" "https://r/a.md" "B" 200 []] =
      ⟨["docs/zh-CN"], [], [], []⟩ ++
        (if 200 = 200 then
          processEntries ⟨"o", "r"⟩
            [GhEntry.mk "file" "a.md" "docs/zh-CN/a.md" "https://r/a.md" "B" 200 []]
         else ⟨[], [], [], [("docs/zh-CN", 200)]⟩) :=
  ⟨by decide, C10_zh_exact_match_only ⟨"o", "r"⟩ "docs/zh-CN" 200
    [GhEntry.mk "file" "a.md" "docs/zh-CN/a.md" "https://r/a.md" "B" 200 []] (by decide)⟩

unseal removeTags removeUrls specRemoveUrls removeCopyright removeColonTokens in
/-- C2 fails as stated: the code's URL rule `www.\S+` has an unescaped dot,
so for the input `"a\nwww bc"` (which contains a newline, hence is in the
claim's domain) the characters `www bc` — which belong to no HTML tag, no
URL token in the spec's sense (`www` here is not followed by `.`), no
copyright marker, no emoji and no newline — are deleted rather than
preserved: the code yields `"a "` while the spec's own normalization rules
yield `"a www bc"`. -/
theorem C2_counterexample_www_wildcard :
    preprocess_text "a\nwww bc" = "a " ∧
    specNormalize "a\nwww bc" = "a www bc" ∧
    preprocess_text "a\nwww bc" ≠ specNormalize "a\nwww bc" := by
  refine ⟨by decide, by decide, by decide⟩

unseal removeTags removeUrls removeCopyright removeColonTokens collapseWs in
/-- C3 fails as stated: one pass on `"www\nx"` gives `"www x"` (the
newline becomes a space), and the second pass then matches `www.\S+`
against `"www x"` and deletes everything, so `f (f s) ≠ f s`. -/
theorem C3_counterexample_not_idempotent :
    normalizeCollapse "www\nx" = "www x" ∧
    normalizeCollapse (normalizeCollapse "www\nx") = "" ∧
    normalizeCollapse (normalizeCollapse "www\nx") ≠ normalizeCollapse "www\nx" := by
  refine ⟨by decide, by decide, by decide⟩

/-! ## Trace algebra -/

theorem Trace.empty_app (a : Trace) : Trace.empty ++ a = a := by
  cases a
  simp [Trace.app_def, Trace.empty]

theorem Trace.app_empty (a : Trace) : a ++ Trace.empty = a := by
  cases a
  simp [Trace.app_def, Trace.empty]

theorem Trace.app_assoc (a b c : Trace) : a ++ b ++ c = a ++ (b ++ c) := by
  cases a
  cases b
  cases c
  simp [Trace.app_def]

theorem processEntries_append (repo_info : RepoInfo) (l1 l2 : List GhEntry) :
    processEntries repo_info (l1 ++ l2) =
      processEntries repo_info l1 ++ processEntries repo_info l2 := by
  induction l1 with
  | nil =>
    rw [List.nil_append]
    conv_rhs => rw [processEntries]
    rw [Trace.empty_app]
  | cons e rest ih =>
    obtain ⟨t, n, p, u, b, st, sub⟩ := e
    simp only [List.cons_append]
    rw [processEntries]
    conv_rhs => rw [processEntries]
    rw [ih, Trace.app_assoc]

theorem crawlRepos_append (rs1 rs2 : List (RepoInfo × String × Nat × List GhEntry)) :
    crawlRepos (rs1 ++ rs2) = crawlRepos rs1 ++ crawlRepos rs2 := by
  induction rs1 with
  | nil =>
    rw [List.nil_append]
    conv_rhs => rw [crawlRepos]
    rw [Trace.empty_app]
  | cons r rest ih =>
    obtain ⟨ri, p, st, es⟩ := r
    simp only [List.cons_append]
    rw [crawlRepos]
    conv_rhs => rw [crawlRepos]
    rw [ih, Trace.app_assoc]

/-- C5: a successful listing dispatches exactly as the spec's
classification says — each entry of type `"file"` named `*.md` or `*.mdx`
is fetched, each `"dir"` entry is recursed into, everything else
contributes nothing; in particular `readme.MD` and `notes.txt` files
produce no fetch and no record. -/
theorem C5_file_type_filter (repo_info : RepoInfo) (entries : List GhEntry) :
    processEntries repo_info entries =
      (entries.map (claimStep repo_info)).foldr (· ++ ·) Trace.empty ∧
    (∀ path url body substatus sub,
      processEntries repo_info
        [GhEntry.mk "file" "readme.MD" path url body substatus sub] = Trace.empty) ∧
    (∀ path url body substatus sub,
      processEntries repo_info
        [GhEntry.mk "file" "notes.txt" path url body substatus sub] = Trace.empty) := by
  refine ⟨?_, fun path url body st sub => ?_, fun path url body st sub => ?_⟩
  case refine_2 =>
    rw [processEntries, if_neg (by decide), if_neg (by decide), processEntries]
    exact Trace.app_empty _
  case refine_3 =>
    rw [processEntries, if_neg (by decide), if_neg (by decide), processEntries]
    exact Trace.app_empty _
  induction entries with
  | nil => rw [processEntries]; rfl
  | cons e rest ih =>
    obtain ⟨t, n, p, u, b, st, sub⟩ := e
    rw [processEntries, ih]
    simp only [List.map_cons, List.foldr_cons]
    congr 1
    simp only [claimStep, GhEntry.type, GhEntry.name, GhEntry.path,
      GhEntry.download_url, GhEntry.body, GhEntry.substatus, GhEntry.subentries]
    by_cases ht : t = "file"
    · by_cases h1 : pyEndsWith n ".mdx" = true <;>
        by_cases h2 : pyEndsWith n ".md" = true <;>
        simp [ht, h1, h2]
    · simp [ht]

/-- C6: a non-200 listing for one subdirectory is logged with its status
and terminates only that subtree — no fetches, no records, no recursion —
while sibling entries before and after it in the parent listing, and other
repositories in the run, contribute their fetches and records exactly as
if the failing subtree were absent. -/
theorem C6_failure_isolation (repo_info : RepoInfo) (es1 es2 : List GhEntry)
    (nm dpath url body : String) (substatus : Nat) (sub : List GhEntry)
    (rs1 rs2 : List (RepoInfo × String × Nat × List GhEntry))
    (h1 : substatus ≠ 200) (h2 : basename dpath ≠ "zh") :
    process_directory repo_info dpath substatus sub =
      ⟨[dpath], [], [], [(dpath, substatus)]⟩ ∧
    (processEntries repo_info
        (es1 ++ GhEntry.mk "dir" nm dpath url body substatus sub :: es2)).records =
      (processEntries repo_info es1).records ++ (processEntries repo_info es2).records ∧
    (processEntries repo_info
        (es1 ++ GhEntry.mk "dir" nm dpath url body substatus sub :: es2)).fetches =
      (processEntries repo_info es1).fetches ++ (processEntries repo_info es2).fetches ∧
    crawlRepos (rs1 ++ rs2) = crawlRepos rs1 ++ crawlRepos rs2 := by
  have hfail : process_directory repo_info dpath substatus sub =
      ⟨[dpath], [], [], [(dpath, substatus)]⟩ := by
    unfold process_directory
    simp [h1, h2, Trace.app_def]
  have hmid : processEntries repo_info
      (GhEntry.mk "dir" nm dpath url body substatus sub :: es2) =
      process_directory repo_info dpath substatus sub ++ processEntries repo_info es2 := by
    rw [processEntries, if_neg (by simp), if_pos rfl]
  refine ⟨hfail, ?_, ?_, crawlRepos_append rs1 rs2⟩ <;>
  · rw [processEntries_append, hmid, hfail]
    simp [Trace.app_def]

theorem C6_failure_isolation_witness :
    (500 ≠ 200 ∧ basename "docs/bad" ≠ "zh") ∧
    (process_directory ⟨"o", "r"⟩ "docs/bad" 500 [] =
      ⟨["docs/bad"], [], [], [("docs/bad", 500)]⟩ ∧
    (processEntries ⟨"o", "r"⟩
        ([GhEntry.mk "file" "a.md" "docs/a.md" "https://r/a.md" "A" 200 []] ++
          GhEntry.mk "dir" "bad" "docs/bad" "" "" 500 [] ::
          [GhEntry.mk "file" "b.md" "docs/b.md" "https://r/b.md" "B" 200 []])).records =
      (processEntries ⟨"o", "r"⟩
        [GhEntry.mk "file" "a.md" "docs/a.md" "https://r/a.md" "A" 200 []]).records ++
      (processEntries ⟨"o", "r"⟩
        [GhEntry.mk "file" "b.md" "docs/b.md" "https://r/b.md" "B" 200 []]).records ∧
    (processEntries ⟨"o", "r"⟩
        ([GhEntry.mk "file" "a.md" "docs/a.md" "https://r/a.md" "A" 200 []] ++
          GhEntry.mk "dir" "bad" "docs/bad" "" "" 500 [] ::
          [GhEntry.mk "file" "b.md" "docs/b.md" "https://r/b.md" "B" 200 []])).fetches =
      (processEntries ⟨"o", "r"⟩
        [GhEntry.mk "file" "a.md" "docs/a.md" "https://r/a.md" "A" 200 []]).fetches ++
      (processEntries ⟨"o", "r"⟩
        [GhEntry.mk "file" "b.md" "docs/b.md" "https://r/b.md" "B" 200 []]).fetches ∧
    crawlRepos ([(⟨"o", "r"⟩, "p1", 200, [])] ++ [(⟨"o2", "r2"⟩, "p2", 200, [])]) =
      crawlRepos [(⟨"o", "r"⟩, "p1", 200, [])] ++
      crawlRepos [(⟨"o2", "r2"⟩, "p2", 200, [])]) :=
  ⟨⟨by decide, by decide⟩,
    C6_failure_isolation ⟨"o", "r"⟩
      [GhEntry.mk "file" "a.md" "docs/a.md" "https://r/a.md" "A" 200 []]
      [GhEntry.mk "file" "b.md" "docs/b.md" "https://r/b.md" "B" 200 []]
      "bad" "docs/bad" "" "" 500 []
      [(⟨"o", "r"⟩, "p1", 200, [])] [(⟨"o2", "r2"⟩, "p2", 200, [])]
      (by decide) (by decide)⟩

/-! ## C2 amended: code vs. spec URL rule -/

theorem noWww_suffix {l t : List Char} (h : t <:+ l) (hw : noWww l = true) :
    noWww t = true := by
  induction l with
  | nil =>
    have : t = [] := List.suffix_nil.mp h
    subst this
    exact hw
  | cons c rest ih =>
    rcases List.suffix_cons_iff.mp h with h1 | h1
    · subst h1; exact hw
    · simp only [noWww, Bool.and_eq_true] at hw
      exact ih h1 hw.2

theorem urlRest_suffix (l : List Char) : urlRest l <:+ l :=
  (List.dropWhile_suffix nonWs).trans (List.drop_suffix 4 l)

theorem specWwwHit_eq_false {l : List Char}
    (hwww : "www".data.isPrefixOf l = false) : specWwwHit l = false := by
  cases hp : "www.".data.isPrefixOf l with
  | false => simp [specWwwHit, hp]
  | true =>
    exfalso
    have h4 : "www".data <+: "www.".data := by decide
    have h5 := List.isPrefixOf_iff_prefix.mp hp
    have h6 : "www".data.isPrefixOf l = true :=
      List.isPrefixOf_iff_prefix.mpr (h4.trans h5)
    rw [h6] at hwww
    exact Bool.noConfusion hwww

theorem wwwHit_eq_false {l : List Char}
    (hwww : "www".data.isPrefixOf l = false) : wwwHit l = false := by
  simp [wwwHit, hwww]

theorem removeUrls_eq_spec_aux :
    ∀ (fuel : Nat) (l : List Char), l.length ≤ fuel → noWww l = true →
      removeUrls l = specRemoveUrls l := by
  intro fuel
  induction fuel with
  | zero =>
    intro l hl _
    have : l = [] := List.length_eq_zero.mp (Nat.le_zero.mp hl)
    subst this
    rw [removeUrls, specRemoveUrls]
  | succ n ih =>
    intro l hl hw
    match l with
    | [] => rw [removeUrls, specRemoveUrls]
    | c :: rest =>
      have hw' := hw
      simp only [noWww, Bool.and_eq_true, Bool.not_eq_true'] at hw'
      obtain ⟨hwww, hw2⟩ := hw'
      rw [removeUrls, specRemoveUrls, wwwHit_eq_false hwww, specWwwHit_eq_false hwww]
      by_cases hh : httpHit (c :: rest) = true
      · rw [hh]
        simp only [Bool.true_or, if_true]
        exact ih (urlRest (c :: rest))
          (by have := @urlRest_length (c :: rest) (by simp)
              simp only [List.length_cons] at *
              omega)
          (noWww_suffix (urlRest_suffix _) hw)
      · rw [Bool.not_eq_true] at hh
        rw [hh]
        simp only [Bool.or_false]
        rw [if_neg (by simp), if_neg (by simp)]
        exact congrArg (List.cons c)
          (ih rest (by simp only [List.length_cons] at hl; omega) hw2)

theorem removeUrls_eq_spec {l : List Char} (h : noWww l = true) :
    removeUrls l = specRemoveUrls l :=
  removeUrls_eq_spec_aux l.length l le_rfl h

/-- C2 amended: the code's normalization agrees exactly with the spec's
described rules (tags, `http`-token and literal `www.`-token removal,
copyright-line removal, newline replacement, emoji removal) on every input
whose tag-stripped form contains no occurrence of `www`; the counterexample
shows the two differ otherwise, because the unescaped dot in the code's
`www.\S+` also deletes `www` followed by any non-newline character and a
non-whitespace run. -/
theorem C2_amended_matches_spec (s : String)
    (h : noWww (removeTags s.data) = true) :
    preprocess_text s = specNormalize s := by
  unfold preprocess_text specNormalize preprocessList specPreprocessList
  rw [removeUrls_eq_spec h]

unseal removeTags in
theorem C2_amended_matches_spec_witness :
    noWww (removeTags "<p>Hi</p>\nsee http://a.b Copyright z 🎉".data) = true ∧
    preprocess_text "<p>Hi</p>\nsee http://a.b Copyright z 🎉" =
      specNormalize "<p>Hi</p>\nsee http://a.b Copyright z 🎉" :=
  ⟨by decide, C2_amended_matches_spec "<p>Hi</p>\nsee http://a.b Copyright z 🎉" (by decide)⟩

/-! ## C3 amended: idempotence on construct-free first-pass outputs -/

theorem hasChar_false_cons {a c : Char} {rest : List Char}
    (h : hasChar a (c :: rest) = false) : c ≠ a ∧ hasChar a rest = false := by
  simp only [hasChar, Bool.or_eq_false_iff, decide_eq_false_iff_not] at h
  exact h

theorem hasChar_sublist {a : Char} {l t : List Char} (h : List.Sublist t l)
    (hc : hasChar a l = false) : hasChar a t = false := by
  induction h with
  | slnil => rfl
  | cons c _ ih =>
    obtain ⟨-, hr⟩ := hasChar_false_cons hc
    exact ih hr
  | cons₂ c _ ih =>
    obtain ⟨hne, hr⟩ := hasChar_false_cons hc
    simp [hasChar, hne, ih hr]

theorem afterGt_eq_none {l : List Char} (h : hasChar '>' l = false) :
    afterGt l = none := by
  induction l with
  | nil => rfl
  | cons c rest ih =>
    obtain ⟨hne, hrest⟩ := hasChar_false_cons h
    rw [afterGt, if_neg hne]
    exact ih hrest

theorem tagFree_of_no_gt {l : List Char} (h : hasChar '>' l = false) :
    tagFree l = true := by
  unfold tagFree
  cases hd : l.dropWhile (fun c => c ≠ '<') with
  | nil => rfl
  | cons x rest =>
    have hsub : List.Sublist rest l := by
      have h1 : List.Sublist (x :: rest) l := hd ▸ List.dropWhile_sublist _
      exact (List.sublist_cons_self x rest).trans h1
    simp [hasChar_sublist hsub h]

theorem tagFree_id {l : List Char} (h : tagFree l = true) : removeTags l = l := by
  induction l with
  | nil => rw [removeTags]
  | cons c rest ih =>
    by_cases hc : c = '<'
    · subst hc
      have hgt : hasChar '>' rest = false := by
        unfold tagFree at h
        rw [List.dropWhile_cons] at h
        simp only [decide_not, decide_eq_true_eq] at h
        rw [if_neg (by simp)] at h
        simpa using h
      rw [removeTags, if_pos rfl, afterGt_eq_none hgt]
      exact congrArg (List.cons '<') (ih (tagFree_of_no_gt hgt))
    · have ht : tagFree rest = true := by
        unfold tagFree at h ⊢
        rw [List.dropWhile_cons] at h
        rw [if_pos (by simp [hc])] at h
        exact h
      rw [removeTags, if_neg hc]
      exact congrArg (List.cons c) (ih ht)

theorem urlFree_id {l : List Char} (h : urlFree l = true) : removeUrls l = l := by
  induction l with
  | nil => rw [removeUrls]
  | cons c rest ih =>
    simp only [urlFree, Bool.and_eq_true, Bool.not_eq_true'] at h
    obtain ⟨hhit, hrest⟩ := h
    rw [removeUrls, hhit, if_neg (by simp)]
    exact congrArg (List.cons c) (ih hrest)

theorem copyrightFree_id {l : List Char} (h : copyrightFree l = true) :
    removeCopyright l = l := by
  induction l with
  | nil => rw [removeCopyright]
  | cons c rest ih =>
    simp only [copyrightFree, Bool.and_eq_true, Bool.not_eq_true'] at h
    obtain ⟨hpre, hrest⟩ := h
    rw [removeCopyright, hpre, if_neg (by simp)]
    exact congrArg (List.cons c) (ih hrest)

theorem colonFree_id {l : List Char} (h : colonFree l = true) :
    removeColonTokens l = l := by
  induction l with
  | nil => rw [removeColonTokens]
  | cons c rest ih =>
    simp only [colonFree, Bool.and_eq_true, Bool.not_eq_true'] at h
    obtain ⟨hhit, hrest⟩ := h
    rw [removeColonTokens, hhit, if_neg (by simp)]
    exact congrArg (List.cons c) (ih hrest)

theorem replaceNewlines_id {l : List Char} (h : hasChar '\n' l = false) :
    replaceNewlines l = l := by
  induction l with
  | nil => rfl
  | cons c rest ih =>
    obtain ⟨hne, hrest⟩ := hasChar_false_cons h
    simp only [replaceNewlines, List.map_cons, if_neg hne]
    exact congrArg (List.cons c) (ih hrest)

theorem demojize_id {l : List Char} (h : hasChar '🎉' l = false) :
    demojize l = l := by
  induction l with
  | nil => rfl
  | cons c rest ih =>
    obtain ⟨hne, hrest⟩ := hasChar_false_cons h
    simp only [demojize, List.flatMap_cons]
    rw [demojizeChar, if_neg hne]
    simp only [List.singleton_append]
    exact congrArg (List.cons c) (ih hrest)

theorem dropWhile_head_false {p : Char → Bool} {l : List Char} {d : Char} {t : List Char}
    (h : l.dropWhile p = d :: t) : p d = false := by
  induction l with
  | nil => simp at h
  | cons c rest ih =>
    rw [List.dropWhile_cons] at h
    by_cases hc : p c = true
    · rw [if_pos hc] at h
      exact ih h
    · rw [if_neg hc] at h
      injection h with h1 h2
      subst h1
      simp only [Bool.not_eq_true] at hc
      exact hc

theorem collapseWs_head_not_ws {v : List Char}
    (hv : ∀ d t, v = d :: t → isPySpace d = false) :
    ∀ d t, collapseWs v = d :: t → isPySpace d = false := by
  cases v with
  | nil =>
    intro d t h
    rw [collapseWs] at h
    cases h
  | cons c rest =>
    intro d t h
    have hc := hv c rest rfl
    rw [collapseWs, if_neg (by simp [hc])] at h
    injection h with h1 h2
    subst h1
    exact hc

theorem AllBlank_nil : AllBlank [] :=
  fun c hc _ => absurd hc (List.not_mem_nil c)

theorem AllBlank_tail {c : Char} {rest : List Char} (h : AllBlank (c :: rest)) :
    AllBlank rest :=
  fun x hx hws => h x (List.mem_cons_of_mem c hx) hws

theorem collapseWs_canonical :
    ∀ (fuel : Nat) (u : List Char), u.length ≤ fuel →
      AllBlank (collapseWs u) ∧ NoTwoWs (collapseWs u) := by
  intro fuel
  induction fuel with
  | zero =>
    intro u hu
    have hnil : u = [] := List.length_eq_zero.mp (Nat.le_zero.mp hu)
    subst hnil
    rw [collapseWs]
    exact ⟨AllBlank_nil, List.chain'_nil⟩
  | succ n ih =>
    intro u hu
    cases u with
    | nil =>
      rw [collapseWs]
      exact ⟨AllBlank_nil, List.chain'_nil⟩
    | cons c rest =>
      simp only [List.length_cons] at hu
      by_cases hc : isPySpace c = true
      · rw [collapseWs, if_pos hc]
        have hvlen : (rest.dropWhile isPySpace).length ≤ n :=
          le_trans (dropWhile_len_le _ _) (by omega)
        obtain ⟨ha, hn2⟩ := ih (rest.dropWhile isPySpace) hvlen
        refine ⟨?_, ?_⟩
        · intro d hd hws
          rcases List.mem_cons.mp hd with h1 | h1
          · exact h1
          · exact ha d h1 hws
        · rw [NoTwoWs, List.chain'_cons']
          refine ⟨?_, hn2⟩
          intro y hy hcontra
          have hyws : isPySpace y = false := by
            cases hcv : collapseWs (rest.dropWhile isPySpace) with
            | nil => rw [hcv] at hy; cases hy
            | cons d t =>
              rw [hcv] at hy
              have hyd : y = d := by
                simp only [List.head?_cons, Option.mem_def, Option.some.injEq] at hy
                exact hy.symm
              subst hyd
              exact collapseWs_head_not_ws
                (fun d' t' hveq => dropWhile_head_false hveq) y t hcv
          rw [hyws] at hcontra
          exact Bool.noConfusion hcontra.2
      · rw [collapseWs, if_neg hc]
        obtain ⟨ha, hn2⟩ := ih rest (by omega)
        refine ⟨?_, ?_⟩
        · intro d hd hws
          rcases List.mem_cons.mp hd with h1 | h1
          · subst h1; exact absurd hws hc
          · exact ha d h1 hws
        · rw [NoTwoWs, List.chain'_cons']
          exact ⟨fun y _ hcontra => hc hcontra.1, hn2⟩

theorem collapseWs_allBlank (u : List Char) : AllBlank (collapseWs u) :=
  (collapseWs_canonical u.length u le_rfl).1

theorem collapseWs_noTwoWs (u : List Char) : NoTwoWs (collapseWs u) :=
  (collapseWs_canonical u.length u le_rfl).2

theorem AllBlank_sublist {l t : List Char} (h : List.Sublist t l) (ha : AllBlank l) :
    AllBlank t :=
  fun c hc hws => ha c (h.subset hc) hws

theorem AllBlank_reverse {l : List Char} (ha : AllBlank l) : AllBlank l.reverse :=
  fun c hc hws => ha c (List.mem_reverse.mp hc) hws

theorem NoTwoWs_suffix {l t : List Char} (h : t <:+ l) (hn : NoTwoWs l) :
    NoTwoWs t := by
  obtain ⟨pre, rfl⟩ := h
  exact (List.chain'_append.mp hn).2.1

theorem NoTwoWs_reverse {l : List Char} (hn : NoTwoWs l) : NoTwoWs l.reverse := by
  rw [NoTwoWs, List.chain'_reverse]
  exact List.Chain'.imp (fun a b hab hcontra => hab ⟨hcontra.2, hcontra.1⟩) hn

theorem pyStrip_AllBlank {u : List Char} (ha : AllBlank u) : AllBlank (pyStrip u) := by
  unfold pyStrip
  exact AllBlank_reverse (AllBlank_sublist (List.dropWhile_sublist _)
    (AllBlank_reverse (AllBlank_sublist (List.dropWhile_sublist _) ha)))

theorem pyStrip_NoTwoWs {u : List Char} (hn : NoTwoWs u) : NoTwoWs (pyStrip u) := by
  unfold pyStrip
  exact NoTwoWs_reverse (NoTwoWs_suffix (List.dropWhile_suffix _)
    (NoTwoWs_reverse (NoTwoWs_suffix (List.dropWhile_suffix _) hn)))

theorem pyStrip_head_not_ws {u : List Char} {d : Char} {t : List Char}
    (h : pyStrip u = d :: t) : isPySpace d = false := by
  unfold pyStrip at h
  have h1 : (((u.dropWhile isPySpace).reverse.dropWhile isPySpace)).getLast? = some d := by
    rw [← List.head?_reverse, h]
    rfl
  obtain ⟨pre, hpre⟩ := @List.dropWhile_suffix Char ((u.dropWhile isPySpace).reverse) isPySpace
  have h2 : ((u.dropWhile isPySpace).reverse).getLast? = some d := by
    rw [← hpre, List.getLast?_append, h1]
    rfl
  rw [List.getLast?_reverse] at h2
  cases hU : u.dropWhile isPySpace with
  | nil => rw [hU] at h2; cases h2
  | cons x xs =>
    rw [hU] at h2
    simp only [List.head?_cons, Option.some.injEq] at h2
    subst h2
    exact dropWhile_head_false hU

theorem pyStrip_last_not_ws {u : List Char} {d : Char}
    (h : (pyStrip u).getLast? = some d) : isPySpace d = false := by
  unfold pyStrip at h
  rw [List.getLast?_reverse] at h
  cases hW : (u.dropWhile isPySpace).reverse.dropWhile isPySpace with
  | nil => rw [hW] at h; cases h
  | cons x xs =>
    rw [hW] at h
    simp only [List.head?_cons, Option.some.injEq] at h
    subst h
    exact dropWhile_head_false hW

theorem dropWhile_id_of_head {p : Char → Bool} {l : List Char}
    (h : ∀ d t, l = d :: t → p d = false) : l.dropWhile p = l := by
  cases l with
  | nil => rfl
  | cons c rest => rw [List.dropWhile_cons, if_neg (by simp [h c rest rfl])]

theorem collapseWs_id {l : List Char} (ha : AllBlank l) (hn : NoTwoWs l) :
    collapseWs l = l := by
  induction l with
  | nil => rw [collapseWs]
  | cons c rest ih =>
    have hn2 : NoTwoWs rest := List.Chain'.tail hn
    by_cases hc : isPySpace c = true
    · have hcsp : c = ' ' := ha c (List.mem_cons_self c rest) hc
      rw [collapseWs, if_pos hc]
      have hdrop : rest.dropWhile isPySpace = rest := by
        apply dropWhile_id_of_head
        intro d t hdt
        have hrel := (List.chain'_cons'.mp hn).1 d (by rw [hdt]; rfl)
        cases hd : isPySpace d with
        | false => rfl
        | true => exact absurd ⟨hc, hd⟩ hrel
      rw [hdrop, hcsp]
      exact congrArg (List.cons ' ') (ih (AllBlank_tail ha) hn2)
    · rw [collapseWs, if_neg hc]
      exact congrArg (List.cons c) (ih (AllBlank_tail ha) hn2)

theorem pyStrip_id {l : List Char}
    (hh : ∀ d t, l = d :: t → isPySpace d = false)
    (hl : ∀ d, l.getLast? = some d → isPySpace d = false) :
    pyStrip l = l := by
  unfold pyStrip
  rw [dropWhile_id_of_head hh]
  have hrev : l.reverse.dropWhile isPySpace = l.reverse := by
    apply dropWhile_id_of_head
    intro d t hdt
    apply hl
    rw [← List.head?_reverse, hdt]
    rfl
  rw [hrev, List.reverse_reverse]

theorem AllBlank_no_newline {l : List Char} (ha : AllBlank l) :
    hasChar '\n' l = false := by
  induction l with
  | nil => rfl
  | cons c rest ih =>
    have h1 : c ≠ '\n' := by
      intro he
      subst he
      have h2 := ha '\n' (List.mem_cons_self _ _) (by decide)
      exact absurd h2 (by decide)
    simp [hasChar, h1, ih (AllBlank_tail ha)]

/-- The second pass is the identity on any canonical (collapsed, stripped)
string that contains none of the removable constructs. -/
theorem normalizeCollapseList_id {u : List Char}
    (hAB : AllBlank u) (hNT : NoTwoWs u)
    (hhd : ∀ d t, u = d :: t → isPySpace d = false)
    (hlast : ∀ d, u.getLast? = some d → isPySpace d = false)
    (h1 : tagFree u = true) (h2 : urlFree u = true) (h3 : copyrightFree u = true)
    (h4 : emojiFree u = true) (h5 : colonFree u = true) :
    normalizeCollapseList u = u := by
  have hemoji : hasChar '🎉' u = false := by
    simp only [emojiFree, Bool.not_eq_true'] at h4
    exact h4
  unfold normalizeCollapseList preprocessList
  rw [tagFree_id h1, urlFree_id h2, copyrightFree_id h3,
      replaceNewlines_id (AllBlank_no_newline hAB), demojize_id hemoji,
      colonFree_id h5, collapseWs_id hAB hNT, pyStrip_id hhd hlast]

/-- C3 amended: normalize-then-collapse is idempotent at every input whose
first-pass output contains none of the removable constructs (no HTML tag,
no `http`/`www` URL match, no `Copyright`, no emoji, no colon-token); the
counterexample shows it is not idempotent in general, because
newline-to-space replacement can manufacture a new `www.\S+` match that
only the second pass removes. -/
theorem C3_amended_idempotent_on_construct_free (s : String)
    (h1 : tagFree (normalizeCollapse s).data = true)
    (h2 : urlFree (normalizeCollapse s).data = true)
    (h3 : copyrightFree (normalizeCollapse s).data = true)
    (h4 : emojiFree (normalizeCollapse s).data = true)
    (h5 : colonFree (normalizeCollapse s).data = true) :
    normalizeCollapse (normalizeCollapse s) = normalizeCollapse s := by
  have e1 : normalizeCollapse s = ⟨normalizeCollapseList s.data⟩ := rfl
  have e2 : (normalizeCollapse s).data = normalizeCollapseList s.data := by rw [e1]
  have e3 : normalizeCollapseList s.data =
      pyStrip (collapseWs (preprocessList s.data)) := rfl
  have hAB : AllBlank (normalizeCollapse s).data := by
    rw [e2, e3]
    exact pyStrip_AllBlank (collapseWs_allBlank _)
  have hNT : NoTwoWs (normalizeCollapse s).data := by
    rw [e2, e3]
    exact pyStrip_NoTwoWs (collapseWs_noTwoWs _)
  have hhd : ∀ d t, (normalizeCollapse s).data = d :: t → isPySpace d = false := by
    intro d t h
    rw [e2, e3] at h
    exact pyStrip_head_not_ws h
  have hlast : ∀ d, (normalizeCollapse s).data.getLast? = some d →
      isPySpace d = false := by
    intro d h
    rw [e2, e3] at h
    exact pyStrip_last_not_ws h
  have key : normalizeCollapseList (normalizeCollapse s).data = (normalizeCollapse s).data :=
    normalizeCollapseList_id hAB hNT hhd hlast h1 h2 h3 h4 h5
  have e4 : normalizeCollapse (normalizeCollapse s) =
      ⟨normalizeCollapseList (normalizeCollapse s).data⟩ := rfl
  rw [e4, key]

/-! ## C7/C8: JSON round-trip lemmas -/

theorem hexVal_hexDigitChar : ∀ n, n < 16 → hexVal (hexDigitChar n) = some n := by
  decide

theorem parseHex4_digits {n : Nat} (hn : n < 65536) (t : List Char) :
    parseHex4 (hexDigitChar (n / 4096 % 16) :: hexDigitChar (n / 256 % 16) ::
      hexDigitChar (n / 16 % 16) :: hexDigitChar (n % 16) :: t) = some (n, t) := by
  have h1 := hexVal_hexDigitChar (n / 4096 % 16) (Nat.mod_lt _ (by norm_num))
  have h2 := hexVal_hexDigitChar (n / 256 % 16) (Nat.mod_lt _ (by norm_num))
  have h3 := hexVal_hexDigitChar (n / 16 % 16) (Nat.mod_lt _ (by norm_num))
  have h4 := hexVal_hexDigitChar (n % 16) (Nat.mod_lt _ (by norm_num))
  rw [parseHex4, h1, h2, h3, h4]
  dsimp only
  have harith : 4096 * (n / 4096 % 16) + 256 * (n / 256 % 16) +
      16 * (n / 16 % 16) + n % 16 = n := by omega
  rw [harith]

theorem parseJStringBody_escStep {rest : List Char} {d : Char} {rest2 : List Char}
    (hesc : parseEscape rest = some (d, rest2)) {s' r : List Char}
    (hrec : parseJStringBody rest2 = some (s', r)) :
    parseJStringBody ('\\' :: rest) = some (d :: s', r) := by
  rw [parseJStringBody, if_neg (by decide), if_pos rfl, hesc]
  dsimp only
  rw [hrec]

theorem parseEscape_short {e d : Char} (t : List Char)
    (he : e ≠ 'u') (hd : escDecode e = some d) :
    parseEscape (e :: t) = some (d, t) := by
  rw [parseEscape, if_neg he, hd]
  rfl

theorem parseEscape_bmp {n : Nat} (h1 : n < 0xd800 ∨ 0xe000 ≤ n) (h2 : n < 0x10000)
    (t : List Char) :
    parseEscape ('u' :: hexDigitChar (n / 4096 % 16) :: hexDigitChar (n / 256 % 16) ::
      hexDigitChar (n / 16 % 16) :: hexDigitChar (n % 16) :: t) =
      some (Char.ofNat n, t) := by
  rw [parseEscape, if_pos rfl, parseHex4_digits h2]
  dsimp only
  rw [if_pos h1]

theorem parseEscape_pair {hi lo : Nat} (hhi1 : 0xd800 ≤ hi) (hhi2 : hi < 0xdc00)
    (hlo1 : 0xdc00 ≤ lo) (hlo2 : lo < 0xe000) (t : List Char) :
    parseEscape ('u' :: hexDigitChar (hi / 4096 % 16) :: hexDigitChar (hi / 256 % 16) ::
      hexDigitChar (hi / 16 % 16) :: hexDigitChar (hi % 16) :: '\\' :: 'u' ::
      hexDigitChar (lo / 4096 % 16) :: hexDigitChar (lo / 256 % 16) ::
      hexDigitChar (lo / 16 % 16) :: hexDigitChar (lo % 16) :: t) =
      some (Char.ofNat (0x10000 + (hi - 0xd800) * 1024 + (lo - 0xdc00)), t) := by
  rw [parseEscape, if_pos rfl, parseHex4_digits (by omega)]
  dsimp only
  rw [if_neg (by omega), if_pos (by omega)]
  rw [if_pos ⟨rfl, rfl⟩, parseHex4_digits (by omega)]
  dsimp only
  rw [if_pos (by omega)]

theorem char_range (c : Char) : c.toNat < 0xd800 ∨ (0xdfff < c.toNat ∧ c.toNat < 0x110000) :=
  c.valid

theorem parseJStringBody_escapeChar (c : Char) (t s' r : List Char)
    (hrec : parseJStringBody t = some (s', r)) :
    parseJStringBody (escapeChar c ++ t) = some (c :: s', r) := by
  by_cases h1 : c = '"'
  · subst h1
    exact parseJStringBody_escStep (parseEscape_short t (by decide) (by decide)) hrec
  by_cases h2 : c = '\\'
  · subst h2
    exact parseJStringBody_escStep (parseEscape_short t (by decide) (by decide)) hrec
  by_cases h3 : c = '\n'
  · subst h3
    exact parseJStringBody_escStep (parseEscape_short t (by decide) (by decide)) hrec
  by_cases h4 : c = '\t'
  · subst h4
    exact parseJStringBody_escStep (parseEscape_short t (by decide) (by decide)) hrec
  by_cases h5 : c = '\r'
  · subst h5
    exact parseJStringBody_escStep (parseEscape_short t (by decide) (by decide)) hrec
  by_cases h6 : c = '\x08'
  · subst h6
    exact parseJStringBody_escStep (parseEscape_short t (by decide) (by decide)) hrec
  by_cases h7 : c = '\x0c'
  · subst h7
    exact parseJStringBody_escStep (parseEscape_short t (by decide) (by decide)) hrec
  by_cases h8 : 0x20 ≤ c.toNat ∧ c.toNat ≤ 0x7e
  · have hesc : escapeChar c = [c] := by
      rw [escapeChar, if_neg h1, if_neg h2, if_neg h3, if_neg h4, if_neg h5,
          if_neg h6, if_neg h7, if_pos h8]
    rw [hesc, List.singleton_append]
    rw [parseJStringBody, if_neg h1, if_neg h2, if_neg (by omega)]
    rw [hrec]
  by_cases h9 : c.toNat < 0x10000
  · have hesc : escapeChar c = uEscape c.toNat := by
      rw [escapeChar, if_neg h1, if_neg h2, if_neg h3, if_neg h4, if_neg h5,
          if_neg h6, if_neg h7, if_neg h8, if_pos h9]
    rw [hesc]
    simp only [uEscape, List.cons_append, List.nil_append]
    have hrange : c.toNat < 0xd800 ∨ 0xe000 ≤ c.toNat := by
      rcases char_range c with h | ⟨ha, hb⟩
      · exact Or.inl h
      · right; omega
    have hescp := parseEscape_bmp hrange h9 t
    rw [Char.ofNat_toNat] at hescp
    exact parseJStringBody_escStep hescp hrec
  · have hvalid := char_range c
    have hlt : c.toNat < 0x110000 := by
      rcases hvalid with h | ⟨-, h⟩
      · omega
      · exact h
    have hesc : escapeChar c =
        uEscape (0xd800 + (c.toNat - 0x10000) / 1024) ++
        uEscape (0xdc00 + (c.toNat - 0x10000) % 1024) := by
      rw [escapeChar, if_neg h1, if_neg h2, if_neg h3, if_neg h4, if_neg h5,
          if_neg h6, if_neg h7, if_neg h8, if_neg h9]
    rw [hesc]
    have hmod : (c.toNat - 0x10000) % 1024 < 1024 := Nat.mod_lt _ (by norm_num)
    have hdiv : (c.toNat - 0x10000) / 1024 < 1024 := by omega
    simp only [uEscape, List.cons_append, List.append_assoc, List.nil_append]
    have hescp := @parseEscape_pair (0xd800 + (c.toNat - 0x10000) / 1024)
      (0xdc00 + (c.toNat - 0x10000) % 1024)
      (by omega) (by omega) (by omega) (by omega) t
    have harith : 0x10000 + (0xd800 + (c.toNat - 0x10000) / 1024 - 0xd800) * 1024 +
        (0xdc00 + (c.toNat - 0x10000) % 1024 - 0xdc00) = c.toNat := by omega
    rw [harith, Char.ofNat_toNat] at hescp
    exact parseJStringBody_escStep hescp hrec

theorem parseJStringBody_dumps (cs : List Char) (rest : List Char) :
    parseJStringBody (cs.flatMap escapeChar ++ '"' :: rest) = some (cs, rest) := by
  induction cs with
  | nil =>
    simp only [List.flatMap_nil, List.nil_append]
    rw [parseJStringBody, if_pos rfl]
  | cons c cs ih =>
    simp only [List.flatMap_cons, List.append_assoc]
    exact parseJStringBody_escapeChar c _ cs rest ih

/-- Parsing a serialized string (in cons-normal form). -/
theorem parseJString_quote (cs : List Char) (rest : List Char) :
    parseJString ('"' :: (cs.flatMap escapeChar ++ '"' :: rest)) = some (cs, rest) := by
  rw [parseJString, if_pos rfl]
  exact parseJStringBody_dumps cs rest

theorem skipWs_not_ws {c : Char} (l : List Char) (h : isJsonWs c = false) :
    skipWs (c :: l) = c :: l := by
  rw [skipWs, List.dropWhile_cons, if_neg (by simp [h])]

theorem skipWs_blank_quote (l : List Char) : skipWs (' ' :: '"' :: l) = '"' :: l := by
  rw [skipWs, List.dropWhile_cons, if_pos (by decide), List.dropWhile_cons,
      if_neg (by decide)]

/-- Last member of a serialized object: `"key": "value"` followed by the
closing brace. -/
theorem parseMembers_last (k : String) (vcs : List Char) (rest : List Char) :
    parseMembers ('"' :: (k.data.flatMap escapeChar ++ '"' :: ':' :: ' ' :: '"' ::
        (vcs.flatMap escapeChar ++ '"' :: '\x7d' :: rest))) =
      some ([(k, ⟨vcs⟩)], rest) := by
  rw [parseMembers, parseJString_quote]
  dsimp only
  rw [skipWs_not_ws _ (by decide)]
  dsimp only
  rw [if_pos rfl, skipWs_blank_quote, parseJString_quote]
  dsimp only
  rw [skipWs_not_ws _ (by decide)]
  dsimp only
  rw [if_neg (by decide), if_pos rfl]

/-- Non-final member of a serialized object: `"key": "value", ` followed by
the next member (whose key quote starts `tail`). -/
theorem parseMembers_step (k : String) (vcs : List Char) (tail : List Char)
    (ms : List (String × String)) (r : List Char)
    (htail : parseMembers ('"' :: tail) = some (ms, r)) :
    parseMembers ('"' :: (k.data.flatMap escapeChar ++ '"' :: ':' :: ' ' :: '"' ::
        (vcs.flatMap escapeChar ++ '"' :: ',' :: ' ' :: '"' :: tail))) =
      some ((k, ⟨vcs⟩) :: ms, r) := by
  rw [parseMembers, parseJString_quote]
  dsimp only
  rw [skipWs_not_ws _ (by decide)]
  dsimp only
  rw [if_pos rfl, skipWs_blank_quote, parseJString_quote]
  dsimp only
  rw [skipWs_not_ws _ (by decide)]
  dsimp only
  rw [if_pos rfl, skipWs_blank_quote, htail]

/-- `json.dumps(file_dict)` in cons-normal form. -/
theorem serializeRecord_normal (r : FileDict) :
    serializeRecord r = '\x7b' :: '"' :: ("title".data.flatMap escapeChar ++ '"' ::
      ':' :: ' ' :: '"' :: (r.title.data.flatMap escapeChar ++ '"' :: ',' :: ' ' :: '"' ::
      ("repo_owner".data.flatMap escapeChar ++ '"' :: ':' :: ' ' :: '"' ::
      (r.repo_owner.data.flatMap escapeChar ++ '"' :: ',' :: ' ' :: '"' ::
      ("repo_name".data.flatMap escapeChar ++ '"' :: ':' :: ' ' :: '"' ::
      (r.repo_name.data.flatMap escapeChar ++ '"' :: ',' :: ' ' :: '"' ::
      ("text".data.flatMap escapeChar ++ '"' :: ':' :: ' ' :: '"' ::
      (r.text.data.flatMap escapeChar ++ '"' :: '\x7d' :: [])))))))) := by
  simp only [serializeRecord, dumpsJString, List.cons_append, List.append_assoc,
    List.nil_append, List.singleton_append]

theorem parseLine_serialize (r : FileDict) :
    parseLine (serializeRecord r) =
      some [("title", r.title), ("repo_owner", r.repo_owner),
            ("repo_name", r.repo_name), ("text", r.text)] := by
  have h4 := parseMembers_last "text" r.text.data []
  have h3 := parseMembers_step "repo_name" r.repo_name.data _ _ _ h4
  have h2 := parseMembers_step "repo_owner" r.repo_owner.data _ _ _ h3
  have h1 := parseMembers_step "title" r.title.data _ _ _ h2
  rw [serializeRecord_normal, parseLine]
  rw [skipWs_not_ws _ (by decide)]
  rw [parseObject, if_pos rfl]
  rw [skipWs_not_ws _ (by decide)]
  dsimp only
  rw [if_neg (by decide), h1]
  rfl

theorem docOfObj_record (r : FileDict) :
    docOfObj [("title", r.title), ("repo_owner", r.repo_owner),
      ("repo_name", r.repo_name), ("text", r.text)] = docOfRecord r := rfl

theorem hasChar_append (a : Char) (x y : List Char) :
    hasChar a (x ++ y) = (hasChar a x || hasChar a y) := by
  induction x with
  | nil => simp [hasChar]
  | cons c rest ih => simp [hasChar, ih, Bool.or_assoc]

theorem hexDigitChar_ne_nl : ∀ n, n < 16 → hexDigitChar n ≠ '\n' := by
  decide

theorem uEscape_no_nl (n : Nat) : hasChar '\n' (uEscape n) = false := by
  have d1 := hexDigitChar_ne_nl (n / 4096 % 16) (Nat.mod_lt _ (by norm_num))
  have d2 := hexDigitChar_ne_nl (n / 256 % 16) (Nat.mod_lt _ (by norm_num))
  have d3 := hexDigitChar_ne_nl (n / 16 % 16) (Nat.mod_lt _ (by norm_num))
  have d4 := hexDigitChar_ne_nl (n % 16) (Nat.mod_lt _ (by norm_num))
  simp [uEscape, hasChar, d1, d2, d3, d4]

theorem escapeChar_no_nl (c : Char) : hasChar '\n' (escapeChar c) = false := by
  rw [escapeChar]
  split_ifs with g1 g2 g3 g4 g5 g6 g7 g8 g9
  · decide
  · decide
  · decide
  · decide
  · decide
  · decide
  · decide
  · simp only [hasChar, Bool.or_false]
    have : c ≠ '\n' := by
      intro he
      subst he
      exact absurd g8.1 (by decide)
    simp [this]
  · exact uEscape_no_nl _
  · rw [hasChar_append, uEscape_no_nl, uEscape_no_nl]
    rfl

theorem flatMap_esc_no_nl (cs : List Char) :
    hasChar '\n' (cs.flatMap escapeChar) = false := by
  induction cs with
  | nil => rfl
  | cons c rest ih =>
    rw [List.flatMap_cons, hasChar_append, escapeChar_no_nl, ih]
    rfl

theorem dumps_no_nl (s : String) : hasChar '\n' (dumpsJString s) = false := by
  rw [dumpsJString]
  simp [hasChar, hasChar_append, flatMap_esc_no_nl]

theorem serializeRecord_no_nl (r : FileDict) :
    hasChar '\n' (serializeRecord r) = false := by
  rw [serializeRecord_normal]
  simp only [hasChar, hasChar_append, flatMap_esc_no_nl, Bool.or_false, Bool.false_or]
  decide

theorem splitOnChar_sep {sep : Char} {l1 : List Char} (h : hasChar sep l1 = false)
    (l2 : List Char) :
    splitOnChar sep (l1 ++ sep :: l2) = l1 :: splitOnChar sep l2 := by
  induction l1 with
  | nil =>
    simp only [List.nil_append]
    rw [splitOnChar, if_pos rfl]
  | cons c rest ih =>
    obtain ⟨hne, hr⟩ := hasChar_false_cons h
    simp only [List.cons_append]
    rw [splitOnChar, if_neg hne, ih hr]

theorem loadLines_sink (rs : List FileDict) :
    loadLines (splitOnChar '\n' (sinkFile rs)) = some (rs.map docOfRecord) := by
  induction rs with
  | nil => rfl
  | cons r rs ih =>
    have hs : sinkFile (r :: rs) = serializeRecord r ++ '\n' :: sinkFile rs := by
      simp [sinkFile, List.flatMap_cons, List.append_assoc]
    rw [hs, splitOnChar_sep (serializeRecord_no_nl r), loadLines]
    have hne : (serializeRecord r).isEmpty = false := by
      rw [serializeRecord_normal]
      rfl
    rw [if_neg (by simp [hne])]
    rw [parseLine_serialize]
    dsimp only
    rw [ih]
    dsimp only
    rw [docOfObj_record, List.map_cons]

theorem lookup_none_of_no_key {k : String} :
    ∀ (l : List (String × String)), (∀ p ∈ l, p.1 ≠ k) → l.lookup k = none := by
  intro l
  induction l with
  | nil => intro _; rfl
  | cons p rest ih =>
    intro h
    obtain ⟨k', v⟩ := p
    have hne : (k == k') = false := by
      apply beq_eq_false_iff_ne.mpr
      intro he
      exact h (k', v) (List.mem_cons_self _ _) (by simp [he.symm])
    rw [List.lookup, hne]
    exact ih (fun p hp => h p (List.mem_cons_of_mem _ hp))

theorem jget_default {obj : List (String × String)} {k : String}
    (h : ∀ p ∈ obj, p.1 ≠ k) : jget obj k = "" := by
  rw [jget, lookup_none_of_no_key _ (fun p hp => h p (List.mem_reverse.mp hp))]
  rfl

theorem parseLine_nil : parseLine ([] : List Char) = none := rfl

/-- C7: writing any N records through the sink (one `json.dumps` line each,
appended in order) and loading the file back yields exactly N documents in
file order, with `page_content` equal to each written `text` and metadata
equal to the written `title`/`repo_owner`/`repo_name` — for arbitrary
record contents (escaping round-trips quotes, backslashes, control
characters and non-ASCII). -/
theorem C7_roundtrip (rs : List FileDict) :
    DocsJSONLLoader.load ⟨sinkFile rs⟩ = some (rs.map docOfRecord) ∧
    (rs.map docOfRecord).length = rs.length ∧
    (∀ r : FileDict, docOfRecord r =
      { page_content := r.text
        metadata := { title := r.title, repo_owner := r.repo_owner,
                      repo_name := r.repo_name } }) :=
  ⟨loadLines_sink rs, List.length_map _ _, fun _ => rfl⟩

/-- C8: every line that parses as a JSON object yields exactly one
document; each of the fields `text`, `title`, `repo_owner`, `repo_name`
is looked up with an empty-string default, so absent fields never raise
and never skip the line. -/
theorem C8_loader_defaults (line : String) (obj : List (String × String))
    (h0 : hasChar '\n' line.data = false)
    (h1 : parseLine line.data = some obj) :
    DocsJSONLLoader.load ⟨line.data ++ ['\n']⟩ = some [docOfObj obj] ∧
    docOfObj obj =
      { page_content := jget obj "text"
        metadata := { title := jget obj "title", repo_owner := jget obj "repo_owner",
                      repo_name := jget obj "repo_name" } } ∧
    (∀ k : String, (∀ p ∈ obj, p.1 ≠ k) → jget obj k = "") := by
  refine ⟨?_, rfl, fun k hk => jget_default hk⟩
  have e : DocsJSONLLoader.load ⟨line.data ++ ['\n']⟩ =
      loadLines (splitOnChar '\n' (line.data ++ '\n' :: [])) := rfl
  rw [e, splitOnChar_sep h0, loadLines]
  have hne : line.data.isEmpty = false := by
    cases hl : line.data with
    | nil =>
      rw [hl, parseLine_nil] at h1
      exact absurd h1 (by simp)
    | cons c cs => rfl
  rw [if_neg (by simp [hne]), h1]
  rfl

unseal parseJStringBody parseMembers in
theorem C8_loader_defaults_witness :
    (hasChar '\n' ("\x7b\"title\": \"a\"\x7d" : String).data = false ∧
     parseLine ("\x7b\"title\": \"a\"\x7d" : String).data = some [("title", "a")]) ∧
    (DocsJSONLLoader.load ⟨("\x7b\"title\": \"a\"\x7d" : String).data ++ ['\n']⟩ =
        some [docOfObj [("title", "a")]] ∧
      docOfObj [("title", "a")] =
        { page_content := jget [("title", "a")] "text"
          metadata := { title := jget [("title", "a")] "title",
                        repo_owner := jget [("title", "a")] "repo_owner",
                        repo_name := jget [("title", "a")] "repo_name" } } ∧
      (∀ k : String, (∀ p ∈ [("title", "a")], p.1 ≠ k) →
        jget [("title", "a")] k = "")) :=
  ⟨⟨by decide, by decide⟩,
    C8_loader_defaults "\x7b\"title\": \"a\"\x7d" [("title", "a")]
      (by decide) (by decide)⟩

unseal removeTags removeUrls removeCopyright removeColonTokens collapseWs in
theorem C3_amended_idempotent_witness :
    (tagFree (normalizeCollapse "Hello  world").data = true ∧
     urlFree (normalizeCollapse "Hello  world").data = true ∧
     copyrightFree (normalizeCollapse "Hello  world").data = true ∧
     emojiFree (normalizeCollapse "Hello  world").data = true ∧
     colonFree (normalizeCollapse "Hello  world").data = true) ∧
    normalizeCollapse (normalizeCollapse "Hello  world") = normalizeCollapse "Hello  world" :=
  ⟨⟨by decide, by decide, by decide, by decide, by decide⟩,
   C3_amended_idempotent_on_construct_free "Hello  world"
     (by decide) (by decide) (by decide) (by decide) (by decide)⟩

end DocsCrawler
